import Mathlib

/-!
# BulletApi: shallow embedding of the request-dispatch core

This file embeds the request dispatch and middleware pipeline of the
BulletApi repository (src/bulletapi.js, src/middleware.js, src/response.js,
src/bodyParser.js) and proves the spec claims about them.

Modelling conventions:
* Machine state visible to handlers (the mutable `req`/`res` pair of one
  request) is a single record `St`.  Response writes (`res.writeHead` +
  `res.end`) set the status, append the body and raise `writableEnded`.
* A JS handler body is a deep-embedded program `HProg`; `eff` is a state
  mutation, `branch` a conditional on the state, `callNext` invokes the
  continuation the pipeline passed as third argument, `throwErr` is a
  synchronous throw or asynchronous rejection (both reach the pipeline's
  `catch` identically, so one constructor models both).
* Handler execution within one request is sequential (spec section 5);
  invoking the continuation runs the downstream chain to completion before
  the handler body resumes, which matches the per-request sequential
  semantics of the awaited promise chain.
* A JS function value is modelled as its declared arity plus its body.
  Invoking a 2-parameter function leaves its third parameter unbound, so a
  (syntactically impossible) `callNext` inside a 2-arity body is modelled
  as the TypeError JS would raise when calling an unbound value.
-/

/-- Parsed request body values.  The platform parsing functions
(`JSON.parse`, `URLSearchParams`, `Buffer.concat`) are outside the
repository; each constructor records which parser produced the value and
from which raw stream content, which is all the claims need. -/
inductive BodyV where
  | jsonOf : String → BodyV
  | formOf : String → BodyV
  | bufOf : String → BodyV
  | strOf : String → BodyV
deriving DecidableEq, Repr

/-- The per-request mutable state seen by handlers: request-context fields
(`params`, `body`, headers, the unread input stream) and response fields
(`writableEnded`, the written status head and body).  `log` is an
observation field: scenario handlers append to it, the framework itself
never touches it. -/
structure St where
  params : List (String × String)
  reqBody : Option BodyV
  contentType : Option String
  contentLength : Option Nat
  stream : String
  streamConsumed : Bool
  writableEnded : Bool
  headStatus : Option Nat
  resBody : String
  log : List Nat
deriving DecidableEq, Repr

/-- Model of `res.writeHead(code, ...)` immediately followed by `res.end(body)`:
record the status, append the body, raise the ended flag. -/
def write (code : Nat) (b : String) (st : St) : St :=
  { st with writableEnded := true, headStatus := some code,
            resBody := st.resBody ++ b }

/-- Deep embedding of a handler body. -/
inductive HProg where
  | done : HProg
  | throwErr : HProg
  | eff : (St → St) → HProg → HProg
  | branch : (St → Bool) → HProg → HProg → HProg
  | callNext : HProg → HProg

/-- A JS function value as the pipeline sees it: declared parameter count
(`Function.prototype.length`) and behaviour. -/
structure Handler where
  arity : Nat
  body : HProg

/-- Run a handler body.  `κ` is the continuation bound to the third
parameter (`none` when the function was invoked with two arguments).
Returns the final state and whether the body threw; a throw abandons the
rest of the body, exactly as a JS exception aborts the function. -/
def runProg : HProg → Option (St → St) → St → St × Bool
  | .done, _, st => (st, false)
  | .throwErr, _, st => (st, true)
  | .eff f p, κ, st => runProg p κ (f st)
  | .branch c p q, κ, st => if c st then runProg p κ st else runProg q κ st
  | .callNext p, κ, st =>
      match κ with
      | some k => runProg p κ (k st)
      | none => (st, true)

/-- The pipeline's catch block (middleware.js lines 16-23): if the
response has not yet ended, write a 500 with the fixed plain-text body;
the error itself only goes to the diagnostic log. -/
def catch500 (st : St) : St :=
  if st.writableEnded then st else write 500 "Internal Server Error\n" st

/-- Embedding of `runNext` from middleware.js: the index-based recursive advance over
the combined handler list.  Guard order is the source's: ended check,
then bounds check, then arity dispatch.  A 2-arity handler is awaited and
the cursor advances automatically; a 3-arity handler receives
`() => runNext(index + 1)` as its continuation and the pipeline does not
advance by itself.  If neither arity branch applies the try block does
nothing and the chain silently stops (unreachable for validly registered
handlers; see the registration claim below). -/
def runNext (hs : List Handler) (i : Nat) (st : St) : St :=
  if st.writableEnded then st
  else if h : i < hs.length then
    let fn := hs[i]
    if fn.arity = 2 then
      let r := runProg fn.body none st
      if r.2 then catch500 r.1 else runNext hs (i + 1) r.1
    else if fn.arity = 3 then
      let r := runProg fn.body (some (fun s => runNext hs (i + 1) s)) st
      if r.2 then catch500 r.1 else r.1
    else st
  else st
termination_by hs.length - i
decreasing_by all_goals omega

/-- Embedding of `middlewarePipeline` from middleware.js: start the advance at index 0. -/
def middlewarePipeline (hs : List Handler) (st : St) : St := runNext hs 0 st

/-! ## Path matcher (bulletapi.js lines 6-23) -/

/-- A character class `\w` of the replacement regex `:(\w+)`. -/
def isWordChar (c : Char) : Bool := c.isAlphanum || c = '_'

/-- One atom of the compiled route regex: a literal character, the `.`
wildcard, or the named capture group `(?<name>[^/]+)` that `:name` is
rewritten to.  The `\/`-escaping pass of `pathToRegex` only makes `/`
literal (which `lit` already is); every other regex metacharacter stays
active in `new RegExp`, and of those only `.` can occur in the atom
stream modelled here — the remaining metacharacters (quantifiers,
anchors, classes, alternation, backslash) are kept outside the domain of
every theorem below. -/
inductive RAtom where
  | lit : Char → RAtom
  | dot : RAtom
  | group : List Char → RAtom
deriving DecidableEq, Repr

/-- Backtracking loop of a `[^/]+` group: try capture lengths `k`,
`k - 1`, ..., `1` (the JS engine is greedy, longest candidate first) and
keep the first whose remainder lets the rest of the regex match. -/
def tryLens (n : List Char) (rest : List Char → Option (List (List Char × List Char)))
    (cs : List Char) : Nat → Option (List (List Char × List Char))
  | 0 => none
  | k + 1 =>
      match rest (cs.drop (k + 1)) with
      | some bs => some ((n, cs.take (k + 1)) :: bs)
      | none => tryLens n rest cs k

/-- Anchored matching of the compiled atoms against a pathname, returning
the named captures in order.  A `[^/]+` group can only consume non-`/`
characters, so its candidate lengths are bounded by the slash-free prefix
of the remaining input. -/
def rmatch : List RAtom → List Char → Option (List (List Char × List Char))
  | [], [] => some []
  | [], _ :: _ => none
  | .lit _ :: _, [] => none
  | .lit a :: as, c :: cs => if a = c then rmatch as cs else none
  | .dot :: _, [] => none
  | .dot :: as, c :: cs => if c = '\n' ∨ c = '\r' then none else rmatch as cs
  | .group n :: as, cs => tryLens n (rmatch as) cs (cs.takeWhile (· ≠ '/')).length

theorem dropWhile_length_le (p : Char → Bool) (l : List Char) :
    (l.dropWhile p).length ≤ l.length := by
  induction l with
  | nil => simp [List.dropWhile]
  | cons c cs ih => by_cases h : p c <;> simp [List.dropWhile, h] <;> omega

/-- Embedding of `pathToRegex` (bulletapi.js lines 6-11) on the characters of the
pattern: rewrite each `:name` (a colon followed by a maximal nonempty run
of word characters, the global left-to-right `:(\w+)` replacement) into a
named `[^/]+` capture group and keep every other character literal. -/
def compileAux : List Char → List RAtom
  | [] => []
  | c :: cs =>
      if c = ':' then
        let name := cs.takeWhile isWordChar
        if name.isEmpty then .lit ':' :: compileAux cs
        else .group name :: compileAux (cs.dropWhile isWordChar)
      else (if c = '.' then .dot else .lit c) :: compileAux cs
termination_by cs => cs.length
decreasing_by
  all_goals simp_wf
  all_goals first
    | omega
    | exact Nat.lt_succ_of_le (dropWhile_length_le _ _)

/-- Embedding of `pathToRegex` on a pattern string. -/
def compile (path : String) : List RAtom := compileAux path.toList

/-- Embedding of `isDynamicPath` (bulletapi.js lines 14-16): `path.includes(":")`. -/
def isDynamicPath (path : String) : Bool := path.toList.contains ':'

/-- Embedding of `extractParams` (bulletapi.js lines 19-23): rematch the compiled
pattern and read off the named capture groups; `match.groups || {}` makes
a failed match the empty mapping. -/
def extractParams (pathname routePath : String) : List (String × String) :=
  match rmatch (compile routePath) pathname.toList with
  | some bs => bs.map (fun b => (String.mk b.1, String.mk b.2))
  | none => []

/-! ## Router / application (bulletapi.js lines 39-208) -/

/-- One entry of the route table: `{ method, path, handlers }`. -/
structure Route where
  method : String
  path : String
  handlers : List Handler

/-- The application's registration state: the global middleware list and
the route table, both append-only. -/
structure App where
  middlewares : List Handler
  routes : List Route

/-- The route-resolution loop of `handleRequest` (bulletapi.js lines
173-191): scan in registration order, skip entries with a different
method, try exact string equality of the stored path against the
pathname, then, only for paths containing `:`, the compiled pattern; stop
at the first hit.  On an exact hit `params` keeps its initial empty
value; on a pattern hit the source re-runs the regex through
`regex.test` and then `extractParams`, two matches of the same compiled
regex against the same pathname, folded here into one `rmatch` whose
result serves both as the test and as the captures. -/
def findRoute : List Route → String → String → Option (Route × List (String × String))
  | [], _, _ => none
  | r :: rs, method, pathname =>
      if r.method ≠ method then findRoute rs method pathname
      else if r.path = pathname then some (r, [])
      else if isDynamicPath r.path then
        if (rmatch (compile r.path) pathname.toList).isSome then
          some (r, extractParams pathname r.path)
        else findRoute rs method pathname
      else findRoute rs method pathname

/-- Embedding of `handleRequest` (bulletapi.js lines 164-208) after URL parsing: on a
match, store the extracted `params` on the request context and run the
pipeline on global middleware concatenated with the route's handlers; on
no match, immediately write the plain-text 404 and stop (no middleware
runs).  Response augmentation and the `query`/`pathname` fields touch no
state the claims mention and are omitted from `St`. -/
def handleRequest (app : App) (method pathname : String) (st : St) : St :=
  match findRoute app.routes method pathname with
  | some (r, params) =>
      middlewarePipeline (app.middlewares ++ r.handlers) { st with params := params }
  | none => write 404 "Not Found\n" st

/-! ## Registration (bulletapi.js lines 25-37, 55-95, 142-162) -/

/-- A value passed to a registration call: a function (with its declared
arity and behaviour) or any non-function value. -/
inductive JsArg where
  | fn : Handler → JsArg
  | notFn : JsArg

/-- Extract the function from a registration argument. -/
def JsArg.toFn : JsArg → Option Handler
  | .fn h => some h
  | .notFn => none

/-- Embedding of `parseHandlers` (bulletapi.js lines 25-37): walk the handler list and
throw on the first non-function or on the first function whose declared
parameter count is neither 2 nor 3. -/
def parseHandlers : List JsArg → Except String Unit
  | [] => .ok ()
  | a :: rest =>
      match a with
      | .notFn => .error "Handler must be a function"
      | .fn h =>
          if h.arity ≠ 2 ∧ h.arity ≠ 3 then
            .error "Handler must have 2 or 3 parameters: (req, res, next) or (req, res)"
          else parseHandlers rest

/-- Embedding of `use` (bulletapi.js lines 55-65): validate the middleware's shape,
then append it to the global middleware list. -/
def use (app : App) (m : JsArg) : Except String App :=
  match m with
  | .notFn => .error "Middleware must be a function"
  | .fn h =>
      if h.arity ≠ 2 ∧ h.arity ≠ 3 then
        .error "Middleware must have 2 or 3 parameters: (req, res, next) or (req, res)"
      else .ok { app with middlewares := app.middlewares ++ [h] }

/-- The shared body of `get`/`post`/`put`/`delete`/`head`/`options`
(bulletapi.js lines 67-95): validate all handlers, then push the route.
Validation happens before the push, so a failing call leaves the route
table untouched. -/
def register (method : String) (app : App) (path : String) (handlers : List JsArg) :
    Except String App :=
  match parseHandlers handlers with
  | .error e => .error e
  | .ok _ =>
      .ok { app with
            routes := app.routes ++ [⟨method, path, handlers.filterMap JsArg.toFn⟩] }

def get (app : App) (path : String) (handlers : List JsArg) : Except String App :=
  register "GET" app path handlers

def post (app : App) (path : String) (handlers : List JsArg) : Except String App :=
  register "POST" app path handlers

def put (app : App) (path : String) (handlers : List JsArg) : Except String App :=
  register "PUT" app path handlers

def del (app : App) (path : String) (handlers : List JsArg) : Except String App :=
  register "DELETE" app path handlers

def headReg (app : App) (path : String) (handlers : List JsArg) : Except String App :=
  register "HEAD" app path handlers

def optionsReg (app : App) (path : String) (handlers : List JsArg) : Except String App :=
  register "OPTIONS" app path handlers

/-- Embedding of `group` (bulletapi.js lines 142-162): the configuration callback is
modelled as the ordered list of registrations it performs through the
temporary handle, each a (method, path, handlers) triple; the handle
prepends the prefix to the path and delegates to the real registration
method.  A thrown registration error propagates out of the callback and
aborts the remaining registrations. -/
def group (app : App) (pre : String) : List (String × String × List JsArg) →
    Except String App
  | [] => .ok app
  | (m, p, hs) :: rest =>
      match register m app (pre ++ p) hs with
      | .error e => .error e
      | .ok app2 => group app2 pre rest

/-! ## Body parsers (src/bodyParser.js)

Each factory returns a 3-parameter async middleware.  The platform
parsing primitives are outside the repository, so `JSON.parse` success is
an abstract predicate `parseOk` on the raw stream text (spec section 1
treats parsers through their contract).  The parse and limit errors these
middlewares raise are caught by their own internal try/catch and turned
into 4xx responses before the pipeline can see them, so the embedded
programs write those responses directly. -/

/-- The `content-type` header test `contentType && contentType.includes(t)`. -/
def ctypeIncludes (t : String) (st : St) : Bool :=
  match st.contentType with
  | some c => (c.splitOn t).length ≠ 1
  | none => false

/-- Advertised `content-length` exceeds the configured limit. -/
def clenExceeds (limit : Nat) (st : St) : Bool :=
  match st.contentLength with
  | some n => n > limit
  | none => false

/-- Consume the request stream and set `req.body` from its text. -/
def consumeInto (mk : String → BodyV) (st : St) : St :=
  { st with reqBody := some (mk st.stream), streamConsumed := true }

/-- Embedding of `json(options)` (bodyParser.js lines 64-111): skip when `req.body` is
already set; otherwise, for `application/json` requests, reject
oversized bodies with a 413, malformed ones with a 400, store the parsed
body and fall through to `next()`.  Empty bodies parse to `{}`. -/
def json (parseOk : String → Bool) (limit : Nat) : Handler :=
  ⟨3, .branch (fun st => st.reqBody.isSome) (.callNext .done)
      (.branch (ctypeIncludes "application/json")
        (.branch (clenExceeds limit)
          (.eff (write 413 "Payload Too Large") .done)
          (.branch (fun st => st.stream.length > limit)
            (.eff (write 413 "Payload Too Large") .done)
            (.branch (fun st => st.stream.length = 0 || parseOk st.stream)
              (.eff (consumeInto .jsonOf) (.callNext .done))
              (.eff (write 400 "Bad Request: Invalid JSON") .done))))
        (.callNext .done))⟩

/-- Embedding of `urlencoded(options)` (bodyParser.js lines 119-177): same shape as
`json` for `application/x-www-form-urlencoded`; `URLSearchParams`
accepts any input, so only the size limit can fail. -/
def urlencoded (limit : Nat) : Handler :=
  ⟨3, .branch (fun st => st.reqBody.isSome) (.callNext .done)
      (.branch (ctypeIncludes "application/x-www-form-urlencoded")
        (.branch (clenExceeds limit)
          (.eff (write 413 "Payload Too Large") .done)
          (.branch (fun st => st.stream.length > limit)
            (.eff (write 413 "Payload Too Large") .done)
            (.eff (consumeInto .formOf) (.callNext .done))))
        (.callNext .done))⟩

/-- Embedding of `raw(options)` (bodyParser.js lines 186-231): no `req.body` check and
no content-type filter — always read the stream (subject to the size
limit) and store it as a buffer, overwriting any existing body. -/
def raw (limit : Nat) : Handler :=
  ⟨3, .branch (clenExceeds limit)
      (.eff (write 413 "Payload Too Large") .done)
      (.branch (fun st => st.stream.length > limit)
        (.eff (write 413 "Payload Too Large") .done)
        (.eff (consumeInto .bufOf) (.callNext .done)))⟩

/-- Embedding of `text(options)` (bodyParser.js lines 240-285): like `raw` but stores
the stream as a string.  Also lacks the `req.body` check. -/
def text (limit : Nat) : Handler :=
  ⟨3, .branch (clenExceeds limit)
      (.eff (write 413 "Payload Too Large") .done)
      (.branch (fun st => st.stream.length > limit)
        (.eff (write 413 "Payload Too Large") .done)
        (.eff (consumeInto .strOf) (.callNext .done)))⟩

/-! ## Step lemmas for the pipeline -/

theorem runNext_ended (hs : List Handler) (i : Nat) (st : St)
    (h : st.writableEnded = true) : runNext hs i st = st := by
  rw [runNext]; simp [h]

theorem runNext_oob (hs : List Handler) (i : Nat) (st : St)
    (h : ¬ i < hs.length) : runNext hs i st = st := by
  rw [runNext]; simp [h]

theorem runNext_h2 (hs : List Handler) (i : Nat) (st : St)
    (hne : st.writableEnded = false) (h : i < hs.length)
    (ha : (hs[i]).arity = 2) :
    runNext hs i st =
      (if (runProg (hs[i]).body none st).2 then
        catch500 (runProg (hs[i]).body none st).1
      else runNext hs (i + 1) (runProg (hs[i]).body none st).1) := by
  rw [runNext]; simp [hne, h, ha]

theorem runNext_h3 (hs : List Handler) (i : Nat) (st : St)
    (hne : st.writableEnded = false) (h : i < hs.length)
    (ha : (hs[i]).arity = 3) :
    runNext hs i st =
      (if (runProg (hs[i]).body (some (fun s => runNext hs (i + 1) s)) st).2 then
        catch500 (runProg (hs[i]).body (some (fun s => runNext hs (i + 1) s)) st).1
      else (runProg (hs[i]).body (some (fun s => runNext hs (i + 1) s)) st).1) := by
  rw [runNext]
  by_cases h2 : (hs[i]).arity = 2
  · omega
  · simp [hne, h, ha, h2]

theorem runNext_badArity (hs : List Handler) (i : Nat) (st : St)
    (h : i < hs.length)
    (h2 : (hs[i]).arity ≠ 2) (h3 : (hs[i]).arity ≠ 3) :
    runNext hs i st = st := by
  rw [runNext]
  by_cases hne : st.writableEnded <;> simp [hne, h, h2, h3]

/-! ## Scenario handlers

Concrete handlers used to observe the pipeline: each appends its identity
to the log on entry and otherwise does nothing; the 3-arity variant then
invokes its continuation once. -/

def logEff (id : Nat) (st : St) : St := { st with log := st.log ++ [id] }

def mk2 (id : Nat) : Handler := ⟨2, .eff (logEff id) .done⟩

def mk3 (id : Nat) : Handler := ⟨3, .eff (logEff id) (.callNext .done)⟩

def mkLog (x : Nat × Bool) : Handler := if x.2 then mk3 x.1 else mk2 x.1

/-- A fresh request state: nothing parsed, nothing written, empty log. -/
def st0 : St := ⟨[], none, none, none, "", false, false, none, "", []⟩

/-- Running the pipeline from index `i` over a suffix of pure logging
handlers appends exactly their identities, in list order. -/
theorem runNext_logChain (l : List (Nat × Bool)) (hs : List Handler) (i : Nat) (st : St)
    (hne : st.writableEnded = false) (hdrop : hs.drop i = l.map mkLog) :
    runNext hs i st = { st with log := st.log ++ l.map Prod.fst } := by
  induction l generalizing i st with
  | nil =>
      have hlen : hs.length - i = 0 := by
        have := congrArg List.length hdrop
        simpa [List.length_drop] using this
      rw [runNext_oob hs i st (by omega)]
      simp
  | cons x l ih =>
      have hlt : i < hs.length := by
        have := congrArg List.length hdrop
        simp [List.length_drop] at this
        omega
      have hget : hs[i] = mkLog x := by
        have hlen0 : 0 < (hs.drop i).length := by simp [hdrop]
        have h0 : (hs.drop i).get ⟨0, hlen0⟩ = mkLog x := by
          simp [hdrop]
        rw [List.get_eq_getElem, List.getElem_drop] at h0
        simpa using h0
      have htail : hs.drop (i + 1) = l.map mkLog := by
        have := congrArg List.tail hdrop
        simpa [List.tail_drop] using this
      have hlogne : (logEff x.1 st).writableEnded = false := by simp [logEff, hne]
      rcases x with ⟨id, b⟩
      cases b with
      | false =>
          have ha : (hs[i]).arity = 2 := by rw [hget]; rfl
          rw [runNext_h2 hs i st hne hlt ha, hget]
          have hrp : runProg (mkLog (id, false)).body none st = (logEff id st, false) := rfl
          rw [hrp]
          simp only [ite_false]
          rw [ih (i + 1) (logEff id st) hlogne htail]
          simp [logEff, List.append_assoc]
      | true =>
          have ha : (hs[i]).arity = 3 := by rw [hget]; rfl
          rw [runNext_h3 hs i st hne hlt ha, hget]
          have hrp : runProg (mkLog (id, true)).body
              (some (fun s => runNext hs (i + 1) s)) st
              = (runNext hs (i + 1) (logEff id st), false) := rfl
          rw [hrp]
          simp only [ite_false]
          rw [ih (i + 1) (logEff id st) hlogne htail]
          simp [logEff, List.append_assoc]

/-- Step of `runNext` at the head of the list for a 2-arity handler. -/
theorem runNext_cons2 (body : HProg) (rest : List Handler) (st : St)
    (hne : st.writableEnded = false) :
    runNext (⟨2, body⟩ :: rest) 0 st =
      (if (runProg body none st).2 then catch500 (runProg body none st).1
       else runNext (⟨2, body⟩ :: rest) 1 (runProg body none st).1) := by
  have h := runNext_h2 (⟨2, body⟩ :: rest) 0 st hne (by simp) (by simp)
  simpa using h

/-- Step of `runNext` at the head of the list for a 3-arity handler. -/
theorem runNext_cons3 (body : HProg) (rest : List Handler) (st : St)
    (hne : st.writableEnded = false) :
    runNext (⟨3, body⟩ :: rest) 0 st =
      (if (runProg body (some (fun s => runNext (⟨3, body⟩ :: rest) 1 s)) st).2 then
        catch500 (runProg body (some (fun s => runNext (⟨3, body⟩ :: rest) 1 s)) st).1
      else (runProg body (some (fun s => runNext (⟨3, body⟩ :: rest) 1 s)) st).1) := by
  have h := runNext_h3 (⟨3, body⟩ :: rest) 0 st hne (by simp) (by simp)
  simpa using h

/-- C3: the pipeline checks the ended flag before invoking the handler at
any cursor position and stops immediately if it is set (first conjunct);
consequently, once a handler ends the response no subsequent handler in
the list is ever invoked — neither through the automatic advance after a
2-argument handler (second conjunct: an ending 2-argument handler
followed by any logging handlers leaves the log untouched) nor through a
later continuation call by a 3-argument handler (third conjunct: the
handler ends the response and then calls its continuation, which finds
the flag set and runs nothing). -/
theorem ended_response_short_circuits :
    (∀ (hs : List Handler) (i : Nat) (st : St),
        st.writableEnded = true → runNext hs i st = st)
    ∧ (∀ (l : List (Nat × Bool)) (st : St) (code : Nat) (b : String),
        st.writableEnded = false →
        runNext (⟨2, .eff (write code b) .done⟩ :: l.map mkLog) 0 st = write code b st)
    ∧ (∀ (l : List (Nat × Bool)) (st : St) (code : Nat) (b : String),
        st.writableEnded = false →
        runNext (⟨3, .eff (write code b) (.callNext .done)⟩ :: l.map mkLog) 0 st
          = write code b st) := by
  refine ⟨fun hs i st h => runNext_ended hs i st h, ?_, ?_⟩
  · intro l st code b hne
    rw [runNext_cons2 _ _ st hne]
    have hrp : runProg (HProg.eff (write code b) .done) none st
        = (write code b st, false) := rfl
    rw [hrp, if_neg (by simp)]
    exact runNext_ended _ 1 _ rfl
  · intro l st code b hne
    rw [runNext_cons3 _ _ st hne]
    have hrp : runProg (HProg.eff (write code b) (.callNext .done))
        (some (fun s => runNext (⟨3, .eff (write code b) (.callNext .done)⟩ :: l.map mkLog) 1 s))
        st
        = (runNext (⟨3, .eff (write code b) (.callNext .done)⟩ :: l.map mkLog) 1
            (write code b st), false) := by
      show (runNext (⟨3, .eff (write code b) (.callNext .done)⟩ :: l.map mkLog) 1
            (write code b st), false)
          = (runNext (⟨3, .eff (write code b) (.callNext .done)⟩ :: l.map mkLog) 1
            (write code b st), false)
      rfl
    rw [hrp, if_neg (by simp)]
    exact runNext_ended _ 1 _ rfl

/-- Witness for C3: a 302-writing 2-argument middleware ahead of a
logging handler ends the chain; the logger never runs (the final state is
exactly the written redirect, its log untouched). -/
theorem ended_response_short_circuits_witness :
    runNext (⟨2, .eff (write 302 "") .done⟩ :: [(5, false)].map mkLog) 0 st0
      = write 302 "" st0 :=
  ended_response_short_circuits.2.1 [(5, false)] st0 302 "" rfl

/-- C4: the executed chain for a matched request is exactly the global
middleware in registration order followed by the route's own handlers in
registration order, with no reordering: for any mix of 2- and 3-argument
logging handlers as middleware list and route handler list, the log comes
out as the two identity lists concatenated in that order. -/
theorem global_middleware_before_route_handlers_in_order
    (ms rh : List (Nat × Bool)) (st : St) (hne : st.writableEnded = false) :
    (handleRequest ⟨ms.map mkLog, [⟨"GET", "/x", rh.map mkLog⟩]⟩ "GET" "/x" st).log
      = st.log ++ ms.map Prod.fst ++ rh.map Prod.fst := by
  have hfr : findRoute [⟨"GET", "/x", rh.map mkLog⟩] "GET" "/x"
      = some (⟨"GET", "/x", rh.map mkLog⟩, []) := by
    simp [findRoute]
  unfold handleRequest
  simp only [hfr, middlewarePipeline]
  rw [runNext_logChain (ms ++ rh) (ms.map mkLog ++ rh.map mkLog) 0
      { st with params := [] } hne (by simp)]
  simp [List.append_assoc]

/-- Witness for C4 at concrete handlers: global middleware 1, 2 (one of
each arity) then route handlers 3, 4. -/
theorem global_middleware_order_witness :
    (handleRequest ⟨[(1, true), (2, false)].map mkLog,
        [⟨"GET", "/x", [(3, true), (4, false)].map mkLog⟩]⟩ "GET" "/x" st0).log
      = [1, 2, 3, 4] := by
  have h := global_middleware_before_route_handlers_in_order
    [(1, true), (2, false)] [(3, true), (4, false)] st0 rfl
  simpa using h

/-- C2: a handler that throws synchronously or rejects asynchronously is
caught at the pipeline level: whatever the handler's arity, the chain's
result is exactly the catch block applied to the state the handler left
behind — no later handler in the list contributes anything, and the
result is an ordinary state, never a propagated exception.  The final
conjunct spells the catch block out: on a not-yet-ended response it ends
it with status 500 and the fixed plain-text body. -/
theorem handler_fault_writes_500_and_stops (hs : List Handler) (i : Nat) (st : St)
    (h : i < hs.length) (hne : st.writableEnded = false) :
    ((hs[i]).arity = 2 → ∀ r : St,
        runProg (hs[i]).body none st = (r, true) → runNext hs i st = catch500 r)
    ∧ ((hs[i]).arity = 3 → ∀ r : St,
        runProg (hs[i]).body (some (fun s => runNext hs (i + 1) s)) st = (r, true) →
        runNext hs i st = catch500 r)
    ∧ (∀ s : St, s.writableEnded = false →
        (catch500 s).writableEnded = true ∧ (catch500 s).headStatus = some 500 ∧
        (catch500 s).resBody = s.resBody ++ "Internal Server Error\n") := by
  refine ⟨?_, ?_, ?_⟩
  · intro ha r hr
    rw [runNext_h2 hs i st hne h ha, hr]
    simp
  · intro ha r hr
    rw [runNext_h3 hs i st hne h ha, hr]
    simp
  · intro s hsend
    simp [catch500, write, hsend]

/-- Witness for C2: a throwing 2-argument handler followed by a logging
handler yields the 500 response and the logger never runs. -/
theorem handler_fault_witness :
    runNext [⟨2, .throwErr⟩, mk2 7] 0 st0 = write 500 "Internal Server Error\n" st0 := by
  have h := (handler_fault_writes_500_and_stops [⟨2, .throwErr⟩, mk2 7] 0 st0
    (by simp) rfl).1 (by simp) st0 (by simp [runProg])
  rw [h]
  rfl

/-- C7: a 3-argument handler that invokes its continuation twice while
the response has not ended re-enters the pipeline at the same next index
both times, so every downstream handler executes twice — here the two
logging handlers run twice, in order, and the pipeline applies no
guard. -/
theorem double_continuation_duplicates_downstream :
    runNext [⟨3, .callNext (.callNext .done)⟩, mk2 1, mk2 2] 0 st0
      = { st0 with log := [1, 2, 1, 2] } := by
  have hκ : ∀ st : St, st.writableEnded = false →
      runNext [⟨3, .callNext (.callNext .done)⟩, mk2 1, mk2 2] 1 st
        = { st with log := st.log ++ [1, 2] } := by
    intro st hne
    exact runNext_logChain [(1, false), (2, false)] _ 1 st hne rfl
  rw [runNext_cons3 _ _ st0 rfl]
  have hrp : runProg (HProg.callNext (.callNext .done))
      (some (fun s => runNext [⟨3, .callNext (.callNext .done)⟩, mk2 1, mk2 2] 1 s)) st0
      = (runNext [⟨3, .callNext (.callNext .done)⟩, mk2 1, mk2 2] 1
          (runNext [⟨3, .callNext (.callNext .done)⟩, mk2 1, mk2 2] 1 st0), false) := rfl
  rw [hrp, if_neg (by simp)]
  rw [hκ st0 rfl]
  rw [hκ _ rfl]
  rfl

/-- The route-matching predicate as the claim states it: same method,
and then either exact string equality of the entry's pattern with the
request pathname or, for a pattern containing `:`, a compiled pattern
match.  This is the spec-side description that the source's scan loop is
measured against. -/
def routeMatches (m p : String) (r : Route) : Bool :=
  (r.method == m) && ((r.path == p) ||
    (isDynamicPath r.path && (rmatch (compile r.path) p.toList).isSome))

/-- The source's scan loop returns precisely the first entry (in
registration order) satisfying `routeMatches`, with empty params on an
exact hit and the extracted captures otherwise. -/
theorem findRoute_eq_first_match (routes : List Route) (m p : String) :
    findRoute routes m p
      = (routes.find? (routeMatches m p)).map
          (fun r => (r, if r.path = p then ([] : List (String × String))
                        else extractParams p r.path)) := by
  induction routes with
  | nil => rfl
  | cons r rs ih =>
      by_cases h1 : r.method = m
      · by_cases h2 : r.path = p
        · have hrm : routeMatches m p r = true := by simp [routeMatches, h1, h2]
          rw [List.find?_cons_of_pos _ hrm]
          simp [findRoute, h1, h2]
        · by_cases h3 : isDynamicPath r.path = true
          · cases hmatch : rmatch (compile r.path) p.data with
            | some bs =>
                have hrm : routeMatches m p r = true := by
                  simp [routeMatches, h1, h2, h3, hmatch]
                rw [List.find?_cons_of_pos _ hrm]
                simp [findRoute, h1, h2, h3, hmatch]
            | none =>
                have hrm : routeMatches m p r = false := by
                  simp [routeMatches, h2, hmatch]
                rw [List.find?_cons_of_neg _ (by simp [hrm])]
                simp [findRoute, h1, h2, h3, hmatch, ih]
          · have hrm : routeMatches m p r = false := by
              simp [routeMatches, h2, h3]
            rw [List.find?_cons_of_neg _ (by simp [hrm])]
            simp [findRoute, h1, h2, h3, ih]
      · have hrm : routeMatches m p r = false := by simp [routeMatches, h1]
        rw [List.find?_cons_of_neg _ (by simp [hrm])]
        simp [findRoute, h1, ih]

/-- C1: dispatch resolves the route by scanning the table in registration
order, filtering by method, testing exact pattern equality before the
compiled pattern match of the same entry, and stopping at the first entry
that passes either test — the first registered matching route wins, with
no global precedence of exact routes over parameterized ones. -/
theorem dispatch_first_registered_match_wins (routes : List Route) (m p : String) :
    findRoute routes m p
      = (routes.find? (routeMatches m p)).map
          (fun r => (r, if r.path = p then ([] : List (String × String))
                        else extractParams p r.path)) :=
  findRoute_eq_first_match routes m p

/-- C6: when no registered route matches the request's method and
pathname, dispatch writes the plain-text 404 and terminates: the final
state is exactly the 404 write, so no global middleware and no handler
ran. -/
theorem unmatched_route_404_no_middleware (app : App) (m p : String) (st : St)
    (h : ∀ r ∈ app.routes, routeMatches m p r = false) :
    handleRequest app m p st = write 404 "Not Found\n" st := by
  have hfr : findRoute app.routes m p = none := by
    rw [findRoute_eq_first_match]
    have hn : app.routes.find? (routeMatches m p) = none :=
      List.find?_eq_none.mpr (fun x hx => by simp [h x hx])
    rw [hn]
    rfl
  unfold handleRequest
  rw [hfr]

/-- Witness for C6: an application with a logging global middleware and
one route gets `GET /nonexistent`; the result is exactly the 404 write
(in particular the middleware's log entry is absent). -/
theorem unmatched_route_404_witness :
    handleRequest ⟨[mk2 9], [⟨"GET", "/sayhi", [mk2 1]⟩]⟩ "GET" "/nonexistent" st0
      = write 404 "Not Found\n" st0 :=
  unmatched_route_404_no_middleware ⟨[mk2 9], [⟨"GET", "/sayhi", [mk2 1]⟩]⟩
    "GET" "/nonexistent" st0 (by simp [routeMatches, isDynamicPath])

/-- A route handler that records how many `req.params` entries it
observes. -/
def paramObserver : Handler :=
  ⟨2, .eff (fun st => { st with log := st.log ++ [st.params.length] }) .done⟩

/-- C9: for every registered route whose pattern string contains `:`
segments, a request whose concrete pathname is character-for-character
the route's own pattern string resolves to that route through the
exact-equality branch of the scan: wherever the route sits in the table
(behind any run of entries that do not match the request), the scan
returns it paired with the empty parameter mapping, and dispatch runs
the pipeline — every global middleware and every one of the route's
handlers — on a context whose `params` is the empty mapping rather than
bindings of the named parameters. -/
theorem exact_match_on_pattern_gives_empty_params
    (pre post : List Route) (r : Route) (app : App) (st : St)
    (happ : app.routes = pre ++ r :: post)
    (hdyn : isDynamicPath r.path = true)
    (hpre : ∀ r2 ∈ pre, routeMatches r.method r.path r2 = false) :
    findRoute app.routes r.method r.path = some (r, [])
    ∧ handleRequest app r.method r.path st
        = middlewarePipeline (app.middlewares ++ r.handlers)
            { st with params := [] } := by
  have hfr : findRoute app.routes r.method r.path = some (r, []) := by
    rw [happ, findRoute_eq_first_match]
    have hfind : ∀ (pre2 : List Route),
        (∀ r2 ∈ pre2, routeMatches r.method r.path r2 = false) →
        (pre2 ++ r :: post).find? (routeMatches r.method r.path) = some r := by
      intro pre2
      induction pre2 with
      | nil =>
          intro _
          simp only [List.nil_append]
          exact List.find?_cons_of_pos _ (by simp [routeMatches])
      | cons a pre3 ih =>
          intro hall
          rw [List.cons_append,
            List.find?_cons_of_neg _ (by simp [hall a (by simp)])]
          exact ih (fun x hx => hall x (by simp [hx]))
    rw [hfind pre hpre]
    simp
  refine ⟨hfr, ?_⟩
  unfold handleRequest
  rw [hfr]

/-- Witness for C9: a two-route table whose second route is
`GET /users/:id`; the request `GET /users/:id` flows past the
non-matching first entry, hits the exact-equality branch, and the
pipeline starts on an empty parameter mapping. -/
theorem exact_match_empty_params_witness :
    findRoute [⟨"GET", "/z", [mk2 5]⟩, ⟨"GET", "/users/:id", [paramObserver]⟩]
        "GET" "/users/:id"
      = some (⟨"GET", "/users/:id", [paramObserver]⟩, [])
    ∧ handleRequest
        ⟨[mk2 9], [⟨"GET", "/z", [mk2 5]⟩, ⟨"GET", "/users/:id", [paramObserver]⟩]⟩
        "GET" "/users/:id" st0
      = middlewarePipeline ([mk2 9] ++ [paramObserver]) { st0 with params := [] } :=
  exact_match_on_pattern_gives_empty_params
    [⟨"GET", "/z", [mk2 5]⟩] [] ⟨"GET", "/users/:id", [paramObserver]⟩
    ⟨[mk2 9], [⟨"GET", "/z", [mk2 5]⟩, ⟨"GET", "/users/:id", [paramObserver]⟩]⟩ st0
    rfl (by decide) (by decide)

/-- Handlers of declared arity 2 or 3, the only shapes registration
accepts. -/
def validH (h : Handler) : Prop := h.arity = 2 ∨ h.arity = 3

/-- Every stored global middleware and every stored route handler has
arity 2 or 3. -/
def validApp (app : App) : Prop :=
  (∀ h ∈ app.middlewares, validH h) ∧ (∀ r ∈ app.routes, ∀ h ∈ r.handlers, validH h)

/-- A successful `parseHandlers` admits only 2- and 3-arity functions. -/
theorem parseHandlers_ok_valid (hs : List JsArg) (hok : parseHandlers hs = .ok ()) :
    ∀ h ∈ hs.filterMap JsArg.toFn, validH h := by
  induction hs with
  | nil => simp
  | cons a rest ih =>
      cases a with
      | notFn => simp [parseHandlers] at hok
      | fn h =>
          by_cases hbad : h.arity ≠ 2 ∧ h.arity ≠ 3
          · simp [parseHandlers, hbad] at hok
          · have hrest : parseHandlers rest = .ok () := by
              simpa [parseHandlers, hbad] using hok
            intro h2 hmem
            have hfm : (JsArg.fn h :: rest).filterMap JsArg.toFn
                = h :: rest.filterMap JsArg.toFn := by
              simp [List.filterMap_cons, JsArg.toFn]
            rw [hfm] at hmem
            rcases List.mem_cons.mp hmem with heq | hmem2
            · subst heq
              rcases eq_or_ne h2.arity 2 with h2a | h2a
              · exact Or.inl h2a
              · exact Or.inr (by tauto)
            · exact ih hrest h2 hmem2

/-- C10: every registration operation — `use`, the shared body of the six
method registrars (`get`, `post`, `put`, `delete`, `head`, `options`),
and registrations made through a `group` handle — preserves the
invariant that every stored handler has declared arity exactly 2 or 3;
and under that invariant the pipeline's arity dispatch is exhaustive:
at every live cursor position the chain takes the 2-argument branch or
the 3-argument branch, never the silent fall-through. -/
theorem registration_preserves_arity_and_dispatch_total :
    (∀ (app : App) (m : JsArg) (app2 : App),
        validApp app → use app m = .ok app2 → validApp app2)
    ∧ (∀ (method : String) (app : App) (path : String) (hs : List JsArg) (app2 : App),
        validApp app → register method app path hs = .ok app2 → validApp app2)
    ∧ (∀ (app : App) (pre : String) (cmds : List (String × String × List JsArg)) (app2 : App),
        validApp app → group app pre cmds = .ok app2 → validApp app2)
    ∧ (∀ hs : List Handler, (∀ h ∈ hs, validH h) →
        ∀ (i : Nat) (hlt : i < hs.length) (st : St), st.writableEnded = false →
        ((hs[i]).arity = 2 ∧ runNext hs i st =
            (if (runProg (hs[i]).body none st).2 then
              catch500 (runProg (hs[i]).body none st).1
            else runNext hs (i + 1) (runProg (hs[i]).body none st).1))
        ∨ ((hs[i]).arity = 3 ∧ runNext hs i st =
            (if (runProg (hs[i]).body (some (fun s => runNext hs (i + 1) s)) st).2 then
              catch500 (runProg (hs[i]).body (some (fun s => runNext hs (i + 1) s)) st).1
            else (runProg (hs[i]).body (some (fun s => runNext hs (i + 1) s)) st).1))) := by
  have hreg : ∀ (method : String) (app : App) (path : String) (hs : List JsArg) (app2 : App),
      validApp app → register method app path hs = .ok app2 → validApp app2 := by
    intro method app path hs app2 hv hok
    cases hph : parseHandlers hs with
    | error e => simp [register, hph] at hok
    | ok u =>
        cases u
        have happ2 : app2 = { app with
            routes := app.routes ++ [⟨method, path, hs.filterMap JsArg.toFn⟩] } := by
          simp [register, hph] at hok
          exact hok.symm
        subst happ2
        refine ⟨hv.1, ?_⟩
        intro r hr h2 hh2
        simp at hr
        rcases hr with hr | hr
        · exact hv.2 r hr h2 hh2
        · subst hr
          exact parseHandlers_ok_valid hs hph h2 hh2
  refine ⟨?_, hreg, ?_, ?_⟩
  · intro app m app2 hv hok
    cases m with
    | notFn => simp [use] at hok
    | fn h =>
        by_cases hbad : h.arity ≠ 2 ∧ h.arity ≠ 3
        · simp [use, hbad] at hok
        · have happ2 : app2 = { app with middlewares := app.middlewares ++ [h] } := by
            simp [use, hbad] at hok
            exact hok.symm
          subst happ2
          refine ⟨?_, hv.2⟩
          intro h2 hh2
          simp at hh2
          rcases hh2 with hh2 | hh2
          · exact hv.1 h2 hh2
          · subst hh2
            rcases eq_or_ne h2.arity 2 with h2a | h2a
            · exact Or.inl h2a
            · exact Or.inr (by tauto)
  · intro app pre cmds
    induction cmds generalizing app with
    | nil =>
        intro app2 hv hok
        simp [group] at hok
        rwa [← hok]
    | cons c rest ih =>
        intro app2 hv hok
        rcases c with ⟨m, pth, hdl⟩
        cases hstep : register m app (pre ++ pth) hdl with
        | error e => simp [group, hstep] at hok
        | ok appMid =>
            have hg : group appMid pre rest = .ok app2 := by
              simpa [group, hstep] using hok
            exact ih appMid app2 (hreg m app (pre ++ pth) hdl appMid hv hstep) hg
  · intro hs hv i hlt st hne
    rcases hv (hs[i]) (by simp) with h2 | h3
    · exact Or.inl ⟨h2, runNext_h2 hs i st hne hlt h2⟩
    · exact Or.inr ⟨h3, runNext_h3 hs i st hne hlt h3⟩

/-- Witness for C10: registering a route through the shared registrar on
a valid application yields a valid application. -/
theorem registration_valid_witness : validApp ⟨[], [⟨"GET", "/a", [mk2 1]⟩]⟩ :=
  registration_preserves_arity_and_dispatch_total.2.1 "GET" ⟨[], []⟩ "/a"
    [.fn (mk2 1)] ⟨[], [⟨"GET", "/a", [mk2 1]⟩]⟩
    ⟨by simp, by simp⟩ rfl

/-- A request state whose body was already claimed by an earlier parser
(as a text body "x") and whose stream still holds "abc". -/
def stBodySet : St :=
  { st0 with reqBody := some (.strOf "x"), stream := "abc" }

/-- Counterexample to C8 as stated: the `raw` body parser does not check
whether `req.body` is already set — run on a state whose body was
already claimed, it re-reads the request stream and overwrites the body
with a buffer of the stream bytes. -/
theorem raw_overwrites_existing_body :
    (runProg (raw (1024 * 1024)).body (some id) stBodySet).1.reqBody
        = some (.bufOf "abc")
    ∧ stBodySet.reqBody = some (.strOf "x")
    ∧ (runProg (raw (1024 * 1024)).body (some id) stBodySet).1.streamConsumed = true
    ∧ (runProg (text (1024 * 1024)).body (some id) stBodySet).1.reqBody
        = some (.strOf "abc") := by
  refine ⟨?_, rfl, ?_, ?_⟩ <;> rfl

/-- C8 (amended): the `json` and `urlencoded` parser middlewares do skip
when the body is already set — each immediately invokes its continuation
on the unchanged state, re-parsing nothing (`raw` and `text` lack this
check, see the counterexample). -/
theorem json_urlencoded_skip_when_body_set
    (parseOk : String → Bool) (limit : Nat) (κ : St → St) (st : St)
    (h : st.reqBody.isSome = true) :
    runProg (json parseOk limit).body (some κ) st = (κ st, false)
    ∧ runProg (urlencoded limit).body (some κ) st = (κ st, false) := by
  constructor <;> simp [json, urlencoded, runProg, h]

/-- Witness for the amended C8 at a concrete already-claimed body. -/
theorem json_urlencoded_skip_witness :
    runProg (json (fun _ => true) 100).body (some id) stBodySet = (stBodySet, false) :=
  (json_urlencoded_skip_when_body_set (fun _ => true) 100 id stBodySet rfl).1

/-! ## Claim C5: the compiled matcher against the segment-level description

The spec describes dynamic-pattern matching segment-wise; the source
compiles the pattern to an anchored regex.  The following development
proves the two agree on every pattern of the supported shape (each
`/`-separated segment either a literal without `:` or a `:name` with a
nonempty word-character name) and every pathname. -/

/-- Split a character list at `/` separators, like `String.split` on a
pathname: `"" ↦ [""]`, `"/a" ↦ ["", "a"]`. -/
def splitSlash : List Char → List (List Char)
  | [] => [[]]
  | c :: cs =>
      if c = '/' then [] :: splitSlash cs
      else
        match splitSlash cs with
        | s :: ss => (c :: s) :: ss
        | [] => [[c]]

theorem splitSlash_ne_nil (cs : List Char) : splitSlash cs ≠ [] := by
  induction cs with
  | nil => simp [splitSlash]
  | cons c cs ih =>
      by_cases hc : c = '/'
      · simp [splitSlash, hc]
      · simp only [splitSlash, hc, ite_false]
        cases hss : splitSlash cs with
        | nil => simp
        | cons s ss => simp

theorem splitSlash_noslash (cs : List Char) (h : ∀ c ∈ cs, c ≠ '/') :
    splitSlash cs = [cs] := by
  induction cs with
  | nil => rfl
  | cons c cs ih =>
      have hc : c ≠ '/' := h c (by simp)
      have hcs : splitSlash cs = [cs] := ih (fun x hx => h x (by simp [hx]))
      simp [splitSlash, hc, hcs]

theorem splitSlash_append (g cs2 : List Char) (hg : ∀ c ∈ g, c ≠ '/') :
    splitSlash (g ++ '/' :: cs2) = g :: splitSlash cs2 := by
  induction g with
  | nil => simp [splitSlash]
  | cons c g2 ih =>
      have hc : c ≠ '/' := hg c (by simp)
      have hg2 : splitSlash (g2 ++ '/' :: cs2) = g2 :: splitSlash cs2 :=
        ih (fun x hx => hg x (by simp [hx]))
      simp [splitSlash, hc, hg2]

theorem mem_splitSlash_noslash (cs s : List Char) (hm : s ∈ splitSlash cs) :
    ∀ c ∈ s, c ≠ '/' := by
  induction cs generalizing s with
  | nil =>
      simp [splitSlash] at hm
      subst hm; simp
  | cons c cs ih =>
      by_cases hc : c = '/'
      · simp [splitSlash, hc] at hm
        rcases hm with hm | hm
        · subst hm; simp
        · exact ih s hm
      · simp only [splitSlash, hc, ite_false] at hm
        cases hss : splitSlash cs with
        | nil => exact absurd hss (splitSlash_ne_nil cs)
        | cons s1 ss =>
            rw [hss] at hm
            simp at hm
            rcases hm with hm | hm
            · subst hm
              intro x hx
              rcases List.mem_cons.mp hx with hx | hx
              · subst hx; exact hc
              · exact ih s1 (by simp [hss]) x hx
            · exact ih s (by simp [hss, hm])

/-- Every list of characters is slash-free or splits at its first `/`. -/
theorem slash_split (cs : List Char) :
    (∀ c ∈ cs, c ≠ '/') ∨
      ∃ g cs2, cs = g ++ '/' :: cs2 ∧ ∀ c ∈ g, c ≠ '/' := by
  induction cs with
  | nil => exact Or.inl (by simp)
  | cons c cs ih =>
      by_cases hc : c = '/'
      · exact Or.inr ⟨[], cs, by simp [hc], by simp⟩
      · rcases ih with h | ⟨g, cs2, heq, hg⟩
        · refine Or.inl ?_
          intro x hx
          rcases List.mem_cons.mp hx with hx | hx
          · subst hx; exact hc
          · exact h x hx
        · refine Or.inr ⟨c :: g, cs2, by simp [heq], ?_⟩
          intro x hx
          rcases List.mem_cons.mp hx with hx | hx
          · subst hx; exact hc
          · exact hg x hx

theorem takeWhile_all (p : Char → Bool) (l : List Char) (h : ∀ c ∈ l, p c = true) :
    l.takeWhile p = l := by
  induction l with
  | nil => rfl
  | cons c l ih =>
      have hc : p c = true := h c (by simp)
      simp [List.takeWhile, hc, ih (fun x hx => h x (by simp [hx]))]

theorem takeWhile_append_fail (p : Char → Bool) (t : List Char) (c : Char)
    (cs2 : List Char) (ht : ∀ x ∈ t, p x = true) (hc : p c = false) :
    (t ++ c :: cs2).takeWhile p = t := by
  induction t with
  | nil => simp [List.takeWhile, hc]
  | cons x t ih =>
      have hx : p x = true := ht x (by simp)
      simp [List.takeWhile, hx, ih (fun y hy => ht y (by simp [hy]))]

theorem dropWhile_all (p : Char → Bool) (l : List Char) (h : ∀ c ∈ l, p c = true) :
    l.dropWhile p = [] := by
  induction l with
  | nil => rfl
  | cons c l ih =>
      have hc : p c = true := h c (by simp)
      simp [List.dropWhile, hc, ih (fun x hx => h x (by simp [hx]))]

theorem dropWhile_append_fail (p : Char → Bool) (t : List Char) (c : Char)
    (cs2 : List Char) (ht : ∀ x ∈ t, p x = true) (hc : p c = false) :
    (t ++ c :: cs2).dropWhile p = c :: cs2 := by
  induction t with
  | nil => simp [List.dropWhile, hc]
  | cons x t ih =>
      have hx : p x = true := ht x (by simp)
      simp [List.dropWhile, hx, ih (fun y hy => ht y (by simp [hy]))]

theorem dropWhile_cons_fail (p : Char → Bool) (cs : List Char) (c : Char)
    (cs2 : List Char) (h : cs.dropWhile p = c :: cs2) : p c = false := by
  induction cs with
  | nil => simp [List.dropWhile] at h
  | cons x cs ih =>
      by_cases hx : p x = true
      · exact ih (by simpa [List.dropWhile, hx] using h)
      · have hd : cs.dropWhile p = cs.dropWhile p := rfl
        simp [List.dropWhile, hx] at h
        rw [← h.1]
        simpa using hx

theorem tryLens_eq_none (n : List Char)
    (rest : List Char → Option (List (List Char × List Char)))
    (cs : List Char) (j : Nat)
    (h : ∀ k, 1 ≤ k → k ≤ j → rest (cs.drop k) = none) :
    tryLens n rest cs j = none := by
  induction j with
  | zero => rfl
  | succ j ih =>
      have hj : rest (cs.drop (j + 1)) = none := h (j + 1) (by omega) (by omega)
      simp only [tryLens, hj]
      exact ih (fun k h1 h2 => h k h1 (by omega))

/-- A `[^/]+` group at the end of the regex matches a nonempty slash-free
remainder whole. -/
theorem rmatch_group_last (nm g : List Char) (hgne : g ≠ [])
    (hg : ∀ c ∈ g, c ≠ '/') :
    rmatch [.group nm] g = some [(nm, g)] := by
  obtain ⟨m, hm⟩ : ∃ m, g.length = m + 1 := by
    cases g with
    | nil => simp at hgne
    | cons c g2 => exact ⟨g2.length, by simp⟩
  have htw : g.takeWhile (fun c => decide (c ≠ '/')) = g :=
    takeWhile_all _ g (fun c hc => by simpa using hg c hc)
  show tryLens nm (rmatch []) g (g.takeWhile (fun c => decide (c ≠ '/'))).length = _
  rw [htw, hm]
  have hdrop : g.drop (m + 1) = [] := by
    rw [← hm]; exact List.drop_length g
  have htake : g.take (m + 1) = g := by
    rw [← hm]; exact List.take_length g
  simp only [tryLens, hdrop, htake]
  rfl

theorem rmatch_group_last_nil (nm : List Char) : rmatch [.group nm] [] = none := rfl

/-- A `[^/]+` group at the end cannot match once a `/` remains in the
input. -/
theorem rmatch_group_last_slash (nm g cs2 : List Char) (hg : ∀ c ∈ g, c ≠ '/') :
    rmatch [.group nm] (g ++ '/' :: cs2) = none := by
  have htw : (g ++ '/' :: cs2).takeWhile (fun c => decide (c ≠ '/')) = g :=
    takeWhile_append_fail _ g '/' cs2 (fun c hc => by simp [hg c hc]) (by simp)
  show tryLens nm (rmatch [])
      (g ++ '/' :: cs2) ((g ++ '/' :: cs2).takeWhile (fun c => decide (c ≠ '/'))).length = _
  rw [htw]
  refine tryLens_eq_none _ _ _ _ ?_
  intro k h1 h2
  have hk : k ≤ g.length := h2
  have hd : (g ++ '/' :: cs2).drop k = g.drop k ++ '/' :: cs2 :=
    List.drop_append_of_le_length hk
  rw [hd]
  cases hgk : g.drop k ++ '/' :: cs2 with
  | nil => simp at hgk
  | cons c rest3 => rfl

/-- A `[^/]+` group cannot match an empty capture: input starting at `/`
fails immediately. -/
theorem rmatch_group_emptyfirst (nm : List Char) (as : List RAtom) (cs2 : List Char) :
    rmatch (.group nm :: as) ('/' :: cs2) = none := by
  show tryLens nm (rmatch as)
      ('/' :: cs2) (('/' :: cs2).takeWhile (fun c => decide (c ≠ '/'))).length = _
  have htw : ('/' :: cs2).takeWhile (fun c => decide (c ≠ '/')) = [] := by
    simp [List.takeWhile]
  rw [htw]
  rfl

/-- With no `/` left in the input, a group followed by a literal `/`
cannot match. -/
theorem rmatch_group_slash_noslash (nm : List Char) (as : List RAtom) (cs : List Char)
    (h : ∀ c ∈ cs, c ≠ '/') :
    rmatch (.group nm :: .lit '/' :: as) cs = none := by
  have htw : cs.takeWhile (fun c => decide (c ≠ '/')) = cs :=
    takeWhile_all _ cs (fun c hc => by simp [h c hc])
  show tryLens nm (rmatch (.lit '/' :: as))
      cs (cs.takeWhile (fun c => decide (c ≠ '/'))).length = _
  rw [htw]
  refine tryLens_eq_none _ _ _ _ ?_
  intro k h1 h2
  rcases Nat.lt_or_ge k cs.length with hlt | hge
  · rw [List.drop_eq_getElem_cons hlt]
    have hne : ('/' : Char) ≠ cs[k] := fun hh => (h cs[k] (List.getElem_mem hlt)) hh.symm
    simp [rmatch, hne]
  · rw [List.drop_of_length_le hge]
    rfl

/-- The decisive case: a group followed by a literal `/` on input whose
slash-free first segment `g` is nonempty captures exactly `g` and hands
the rest of the regex the remainder after the separator. -/
theorem rmatch_group_slash (nm : List Char) (as : List RAtom) (g cs2 : List Char)
    (hgne : g ≠ []) (hg : ∀ c ∈ g, c ≠ '/') :
    rmatch (.group nm :: .lit '/' :: as) (g ++ '/' :: cs2)
      = (rmatch as cs2).map (fun bs => (nm, g) :: bs) := by
  obtain ⟨m, hm⟩ : ∃ m, g.length = m + 1 := by
    cases g with
    | nil => simp at hgne
    | cons c g2 => exact ⟨g2.length, by simp⟩
  have htw : (g ++ '/' :: cs2).takeWhile (fun c => decide (c ≠ '/')) = g :=
    takeWhile_append_fail _ g '/' cs2 (fun c hc => by simp [hg c hc]) (by simp)
  show tryLens nm (rmatch (.lit '/' :: as))
      (g ++ '/' :: cs2) ((g ++ '/' :: cs2).takeWhile (fun c => decide (c ≠ '/'))).length = _
  rw [htw, hm]
  have hdrop : (g ++ '/' :: cs2).drop (m + 1) = '/' :: cs2 := by
    rw [← hm]; exact List.drop_left g _
  have htake : (g ++ '/' :: cs2).take (m + 1) = g := by
    rw [← hm]; exact List.take_left g _
  have hlit : rmatch (.lit '/' :: as) ('/' :: cs2) = rmatch as cs2 := by
    simp [rmatch]
  simp only [tryLens, hdrop, htake, hlit]
  cases hres : rmatch as cs2 with
  | some bs => rfl
  | none =>
      simp only [Option.map_none]
      refine tryLens_eq_none _ _ _ _ ?_
      intro k h1 h2
      have hk : k ≤ g.length := by omega
      have hd : (g ++ '/' :: cs2).drop k = g.drop k ++ '/' :: cs2 :=
        List.drop_append_of_le_length hk
      have hklt : k < g.length := by omega
      rw [hd, List.drop_eq_getElem_cons (by omega : k < g.length),
        List.cons_append]
      have hne : ('/' : Char) ≠ g[k] := fun hh => (hg g[k] (List.getElem_mem hklt)) hh.symm
      simp [rmatch, hne]

/-- A purely literal regex matches exactly its own text. -/
theorem rmatch_lit_only (l cs : List Char) :
    rmatch (l.map .lit) cs = if cs = l then some [] else none := by
  induction l generalizing cs with
  | nil =>
      cases cs with
      | nil => rfl
      | cons c cs2 => simp [rmatch]
  | cons c l ih =>
      cases cs with
      | nil => simp [rmatch]
      | cons c2 cs2 =>
          by_cases hc : c = c2
          · subst hc
            simp [rmatch, ih]
          · have hc2 : ¬ (c2 = c ∧ cs2 = l) := fun hh => hc hh.1.symm
            simp [rmatch, hc, hc2]

/-- Literal atoms followed by a literal `/`: on slash-free literal text
and input decomposed at its first separator, they match exactly when the
literal equals the first segment. -/
theorem rmatch_lit_then_slash (l : List Char) (as : List RAtom) (g cs2 : List Char)
    (hl : ∀ c ∈ l, c ≠ '/') (hg : ∀ c ∈ g, c ≠ '/') :
    rmatch (l.map .lit ++ .lit '/' :: as) (g ++ '/' :: cs2)
      = if l = g then rmatch as cs2 else none := by
  induction l generalizing g with
  | nil =>
      cases g with
      | nil => simp [rmatch]
      | cons c2 g2 =>
          have hc2 : c2 ≠ '/' := hg c2 (by simp)
          simp [rmatch]
          intro hh
          exact absurd hh.symm hc2
  | cons c l ih =>
      cases g with
      | nil =>
          have hc : c ≠ '/' := hl c (by simp)
          simp [rmatch]
          intro hh
          exact absurd hh hc
      | cons c2 g2 =>
          by_cases hc : c = c2
          · subst hc
            have hl2 : ∀ x ∈ l, x ≠ '/' := fun x hx => hl x (by simp [hx])
            have hg2 : ∀ x ∈ g2, x ≠ '/' := fun x hx => hg x (by simp [hx])
            have hstep : rmatch (RAtom.lit c :: (l.map RAtom.lit ++ RAtom.lit '/' :: as))
                (c :: (g2 ++ '/' :: cs2))
                = rmatch (l.map RAtom.lit ++ RAtom.lit '/' :: as) (g2 ++ '/' :: cs2) := by
              simp [rmatch]
            rw [List.map_cons, List.cons_append, List.cons_append, hstep, ih g2 hl2 hg2]
            by_cases hlg : l = g2
            · simp [hlg]
            · simp [hlg]
          · have hc2 : ¬ (c = c2 ∧ l = g2) := fun hh => hc hh.1
            simp [rmatch, hc, hc2]

/-- Literal atoms followed by a literal `/` cannot match slash-free
input. -/
theorem rmatch_lit_then_slash_noslash (l : List Char) (as : List RAtom)
    (cs : List Char) (h : ∀ c ∈ cs, c ≠ '/') :
    rmatch (l.map .lit ++ .lit '/' :: as) cs = none := by
  induction l generalizing cs with
  | nil =>
      cases cs with
      | nil => rfl
      | cons c cs2 =>
          have hc : c ≠ '/' := h c (by simp)
          simp [rmatch]
          intro hh
          exact absurd hh.symm hc
  | cons c l ih =>
      cases cs with
      | nil => simp [rmatch]
      | cons c2 cs2 =>
          by_cases hc : c = c2
          · subst hc
            simp [rmatch, ih cs2 (fun x hx => h x (by simp [hx]))]
          · simp [rmatch, hc]

/-- Segment-wise matching, modelled from the claim's words: equal segment
count, literal (non-`:`) pattern segments string-equal to the pathname
segment, each `:`-named segment bound to a pathname segment of at least
one character containing no `/`. -/
def specSegMatch : List (List Char) → List (List Char) →
    Option (List (List Char × List Char))
  | [], [] => some []
  | pseg :: ps, s :: ss =>
      if pseg.head? = some ':' then
        if 1 ≤ s.length ∧ s.contains '/' = false then
          (specSegMatch ps ss).map (fun bs => (pseg.tail, s) :: bs)
        else none
      else if pseg = s then specSegMatch ps ss else none
  | _, _ => none

/-- The claim's segment-level matcher on whole strings. -/
def specMatch (ptn pathname : String) : Option (List (String × String)) :=
  (specSegMatch (splitSlash ptn.toList) (splitSlash pathname.toList)).map
    (List.map (fun b => (String.mk b.1, String.mk b.2)))

/-- Characters that keep their regex meaning inside `new RegExp`
because `pathToRegex` escapes only `/`. -/
def isMeta (c : Char) : Bool :=
  c = '.' || c = '^' || c = '$' || c = '*' || c = '+' || c = '?' ||
  c = '(' || c = ')' || c = '[' || c = ']' || c = '\x7b' || c = '\x7d' ||
  c = '|' || c = '\\'

/-- A pattern segment of the supported shape: a literal without `:` and
without regex metacharacters, or `:name` with a nonempty word-character
name.  Metacharacter-bearing literals are excluded because the compiled
regex does not treat them literally (see the counterexample to the
original claim below). -/
def wfSeg (s : List Char) : Bool :=
  (!(s.contains ':') && s.all (fun c => !isMeta c)) ||
    (s.head? = some ':' && !s.tail.isEmpty && s.tail.all isWordChar)

/-- Every `/`-separated segment of the pattern has the supported shape. -/
def wfPattern (ptn : List Char) : Bool := (splitSlash ptn).all wfSeg

theorem wfSeg_cases (s : List Char) (h : wfSeg s = true) :
    (∀ c ∈ s, c ≠ ':' ∧ isMeta c = false) ∨
      ∃ t, s = ':' :: t ∧ t ≠ [] ∧ (∀ c ∈ t, isWordChar c = true) := by
  unfold wfSeg at h
  rw [Bool.or_eq_true] at h
  rcases h with h1 | h2
  · left
    rw [Bool.and_eq_true] at h1
    intro c hc
    constructor
    · intro hceq
      subst hceq
      have h1a := h1.1
      simp at h1a
      exact h1a hc
    · have h1b := h1.2
      simp [List.all_eq_true] at h1b
      simpa using h1b c hc
  · right
    cases s with
    | nil => simp at h2
    | cons c t =>
        simp at h2
        refine ⟨t, by rw [h2.1.1], ?_, ?_⟩
        · intro ht
          subst ht
          simpa using h2.1.2
        · intro x hx
          have := h2.2
          simp [List.all_eq_true] at this
          exact this x hx

theorem ne_colon_dot_of (s : List Char) (h : ∀ c ∈ s, c ≠ ':' ∧ isMeta c = false) :
    ∀ c ∈ s, c ≠ ':' ∧ c ≠ '.' := by
  intro c hc
  refine ⟨(h c hc).1, ?_⟩
  intro hh
  subst hh
  have hm := (h '.' hc).2
  simp [isMeta] at hm

theorem contains_eq_false_of (cs : List Char) (h : ∀ c ∈ cs, c ≠ '/') :
    cs.contains '/' = false := by
  by_contra hc
  simp at hc
  exact h '/' hc rfl

/-- Compilation of one segment: a `:name` segment is one capture group,
anything else a run of literal atoms. -/
def atomize (seg : List Char) : List RAtom :=
  if seg.head? = some ':' then [.group seg.tail] else seg.map .lit

/-- Compilation of a nonempty segment list, `/`-separated. -/
def compileSegs : List (List Char) → List RAtom
  | [] => []
  | [s] => atomize s
  | s :: ss => atomize s ++ .lit '/' :: compileSegs ss

theorem atomize_lit (s : List Char) (h : ∀ c ∈ s, c ≠ ':') :
    atomize s = s.map .lit := by
  unfold atomize
  cases s with
  | nil => simp
  | cons c t => simp [h c (by simp)]

theorem head_ne_colon (s : List Char) (h : ∀ c ∈ s, c ≠ ':') :
    ¬ s.head? = some ':' := by
  cases s with
  | nil => simp
  | cons c t => simp [h c (by simp)]

/-- The compiled regex of a supported, slash-free segment list agrees
with the claim's segment-wise matcher on every input. -/
theorem rmatch_compileSegs (segs : List (List Char)) :
    segs ≠ [] →
    (∀ s ∈ segs, wfSeg s = true) →
    (∀ s ∈ segs, ∀ c ∈ s, c ≠ '/') →
    ∀ cs : List Char,
      rmatch (compileSegs segs) cs = specSegMatch segs (splitSlash cs) := by
  induction segs with
  | nil => intro h; simp at h
  | cons s rest ih =>
      intro _ hwf hns cs
      have hwfs : wfSeg s = true := hwf s (by simp)
      have hnss : ∀ c ∈ s, c ≠ '/' := hns s (by simp)
      cases rest with
      | nil =>
          show rmatch (compileSegs [s]) cs = _
          rw [show compileSegs [s] = atomize s from rfl]
          rcases wfSeg_cases s hwfs with hlit | ⟨t, hseq, htne, htw⟩
          · rw [atomize_lit s (fun c hc => (hlit c hc).1), rmatch_lit_only]
            have hhead := head_ne_colon s (fun c hc => (hlit c hc).1)
            rcases slash_split cs with hnos | ⟨g, cs2, hceq, hgns⟩
            · rw [splitSlash_noslash cs hnos]
              by_cases he : cs = s
              · simp [he, specSegMatch, hhead]
              · have hsc : ¬ (s = cs) := fun hh => he hh.symm
                simp [he, specSegMatch, hhead, hsc]
            · subst hceq
              rw [splitSlash_append g cs2 hgns]
              have hne2 : ¬ (g ++ '/' :: cs2 = s) := by
                intro hh
                exact hnss '/' (by rw [← hh]; simp) rfl
              rw [if_neg hne2]
              cases hss : splitSlash cs2 with
              | nil => exact absurd hss (splitSlash_ne_nil cs2)
              | cons a ss2 =>
                  by_cases hsg : s = g <;> simp [specSegMatch, hhead, hsg]
          · subst hseq
            have hat : atomize (':' :: t) = [.group t] := by simp [atomize]
            rw [hat]
            rcases slash_split cs with hnos | ⟨g, cs2, hceq, hgns⟩
            · cases cs with
              | nil =>
                  rw [rmatch_group_last_nil, splitSlash_noslash [] (by simp)]
                  simp [specSegMatch]
              | cons c csb =>
                  rw [splitSlash_noslash _ hnos,
                    rmatch_group_last t _ (by simp) hnos]
                  simp [specSegMatch]
                  constructor
                  · exact fun hh => hnos c (by simp) hh.symm
                  · exact fun hm => hnos '/' (by simp [hm]) rfl
            · subst hceq
              rw [splitSlash_append g cs2 hgns, rmatch_group_last_slash t g cs2 hgns]
              cases hss : splitSlash cs2 with
              | nil => exact absurd hss (splitSlash_ne_nil cs2)
              | cons a ss2 => simp [specSegMatch]
      | cons s2 rest2 =>
          have hihall := ih (by simp) (fun x hx => hwf x (by simp [hx]))
            (fun x hx => hns x (by simp [hx]))
          rw [show compileSegs (s :: s2 :: rest2)
              = atomize s ++ .lit '/' :: compileSegs (s2 :: rest2) from rfl]
          rcases wfSeg_cases s hwfs with hlit | ⟨t, hseq, htne, htw⟩
          · have hhead := head_ne_colon s (fun c hc => (hlit c hc).1)
            rw [atomize_lit s (fun c hc => (hlit c hc).1)]
            rcases slash_split cs with hnos | ⟨g, cs2, hceq, hgns⟩
            · rw [splitSlash_noslash cs hnos,
                rmatch_lit_then_slash_noslash s _ cs hnos]
              simp [specSegMatch, hhead]
            · subst hceq
              rw [splitSlash_append g cs2 hgns,
                rmatch_lit_then_slash s _ g cs2 hnss hgns]
              by_cases hsg : s = g
              · subst hsg
                simp [specSegMatch, hhead, hihall cs2]
              · simp [hsg, specSegMatch, hhead]
          · subst hseq
            have hat : atomize (':' :: t) = [.group t] := by simp [atomize]
            rw [hat]
            rw [show ([RAtom.group t] : List RAtom) ++ .lit '/' :: compileSegs (s2 :: rest2)
                = .group t :: .lit '/' :: compileSegs (s2 :: rest2) from rfl]
            rcases slash_split cs with hnos | ⟨g, cs2, hceq, hgns⟩
            · rw [splitSlash_noslash cs hnos,
                rmatch_group_slash_noslash t _ cs hnos]
              simp [specSegMatch]
            · subst hceq
              rw [splitSlash_append g cs2 hgns]
              cases g with
              | nil =>
                  rw [show (([] : List Char) ++ '/' :: cs2) = '/' :: cs2 from rfl,
                    rmatch_group_emptyfirst]
                  simp [specSegMatch]
              | cons c0 g2 =>
                  rw [rmatch_group_slash t _ (c0 :: g2) cs2 (by simp) hgns,
                    hihall cs2]
                  simp only [specSegMatch, List.head?_cons, List.tail_cons,
                    List.length_cons, Option.some.injEq]
                  rw [if_pos trivial,
                    if_pos ⟨by omega, contains_eq_false_of _ hgns⟩]

theorem isWordChar_slash : isWordChar '/' = false := by decide

theorem compileAux_lit_run (f r : List Char) (hf : ∀ c ∈ f, c ≠ ':' ∧ c ≠ '.') :
    compileAux (f ++ r) = f.map .lit ++ compileAux r := by
  induction f with
  | nil => simp
  | cons c f2 ih =>
      have hc := hf c (by simp)
      rw [List.cons_append]
      simp only [compileAux]
      rw [if_neg hc.1, if_neg hc.2, ih (fun x hx => hf x (by simp [hx]))]
      simp

theorem compileAux_slash_cons (rest : List Char) :
    compileAux ('/' :: rest) = .lit '/' :: compileAux rest := by
  simp only [compileAux]
  rw [if_neg (by decide), if_neg (by decide)]

theorem compileAux_group_cons (t tail : List Char) (htne : t ≠ [])
    (htw : ∀ c ∈ t, isWordChar c = true)
    (htail : tail = [] ∨ ∃ r, tail = '/' :: r) :
    compileAux (':' :: (t ++ tail)) = .group t :: compileAux tail := by
  have htake : (t ++ tail).takeWhile isWordChar = t := by
    rcases htail with h | ⟨r, h⟩
    · subst h; simpa using takeWhile_all _ t htw
    · subst h; exact takeWhile_append_fail _ t '/' r htw isWordChar_slash
  have hdrop : (t ++ tail).dropWhile isWordChar = tail := by
    rcases htail with h | ⟨r, h⟩
    · subst h; simpa using dropWhile_all _ t htw
    · subst h; exact dropWhile_append_fail _ t '/' r htw isWordChar_slash
  have hempty : t.isEmpty = false := by
    cases t with
    | nil => simp at htne
    | cons a b => rfl
  simp only [compileAux]
  rw [if_pos trivial, htake, hdrop, if_neg (by simp [hempty])]

theorem compileAux_eq_segs_bound :
    ∀ (n : Nat) (ptn : List Char), ptn.length ≤ n → wfPattern ptn = true →
      compileAux ptn = compileSegs (splitSlash ptn) := by
  intro n
  induction n with
  | zero =>
      intro ptn hlen _
      have hnil : ptn = [] := by cases ptn <;> simp_all
      subst hnil
      simp [compileAux, splitSlash, compileSegs, atomize]
  | succ n ih =>
      intro ptn hlen hwf
      rcases slash_split ptn with hnos | ⟨f, rest, heq, hfns⟩
      · have hsp : splitSlash ptn = [ptn] := splitSlash_noslash ptn hnos
        have hwfseg : wfSeg ptn = true := by
          unfold wfPattern at hwf
          rw [hsp] at hwf
          simpa using hwf
        rw [hsp]
        rcases wfSeg_cases ptn hwfseg with hlit | ⟨t, hseq, htne, htw⟩
        · have hl := compileAux_lit_run ptn [] (ne_colon_dot_of ptn hlit)
          simp only [List.append_nil] at hl
          rw [hl]
          rw [show compileSegs [ptn] = atomize ptn from rfl,
            atomize_lit ptn (fun c hc => (hlit c hc).1)]
          simp [compileAux]
        · subst hseq
          have hg := compileAux_group_cons t [] htne htw (Or.inl rfl)
          simp only [List.append_nil] at hg
          rw [hg]
          rw [show compileSegs [':' :: t] = atomize (':' :: t) from rfl]
          simp [compileAux, atomize]
      · subst heq
        have hsp : splitSlash (f ++ '/' :: rest) = f :: splitSlash rest :=
          splitSlash_append f rest hfns
        have hwff : wfSeg f = true := by
          unfold wfPattern at hwf
          rw [hsp] at hwf
          simp [List.all_eq_true] at hwf
          exact hwf.1
        have hwfrest : wfPattern rest = true := by
          unfold wfPattern at hwf ⊢
          rw [hsp] at hwf
          simp [List.all_eq_true] at hwf ⊢
          exact hwf.2
        have hlenr : rest.length ≤ n := by
          simp at hlen
          omega
        have hrec := ih rest hlenr hwfrest
        rw [hsp]
        cases hss : splitSlash rest with
        | nil => exact absurd hss (splitSlash_ne_nil rest)
        | cons a ss2 =>
            rw [hss] at hrec
            rcases wfSeg_cases f hwff with hlit | ⟨t, hseq, htne, htw⟩
            · rw [compileAux_lit_run f ('/' :: rest) (ne_colon_dot_of f hlit),
                compileAux_slash_cons rest, hrec]
              rw [show compileSegs (f :: a :: ss2)
                  = atomize f ++ .lit '/' :: compileSegs (a :: ss2) from rfl,
                atomize_lit f (fun c hc => (hlit c hc).1)]
            · subst hseq
              rw [show ((':' :: t) ++ '/' :: rest) = ':' :: (t ++ '/' :: rest) from rfl,
                compileAux_group_cons t ('/' :: rest) htne htw (Or.inr ⟨rest, rfl⟩),
                compileAux_slash_cons rest, hrec]
              rw [show compileSegs ((':' :: t) :: a :: ss2)
                  = atomize (':' :: t) ++ .lit '/' :: compileSegs (a :: ss2) from rfl]
              simp [atomize]

/-- On supported patterns, `pathToRegex` compiles the pattern exactly as the
segment-wise compilation of its `/`-split. -/
theorem compileAux_eq_compileSegs (ptn : List Char) (hwf : wfPattern ptn = true) :
    compileAux ptn = compileSegs (splitSlash ptn) :=
  compileAux_eq_segs_bound ptn.length ptn (Nat.le_refl _) hwf

/-- The parameter names a pattern declares, in order. -/
def paramNames (ptn : List Char) : List (List Char) :=
  (splitSlash ptn).filterMap
    (fun s => if s.head? = some ':' then some s.tail else none)

/-- Counterexample to C5 as stated: `pathToRegex` escapes only `/`, so
other regex metacharacters stay active.  The pattern string `/a.b/:id`
contains `:`, and its compiled regex treats `.` as a wildcard: the
pathname `/aXb/5` matches it with `id = "5"` although the claimed
literal-segment equality (segment `a.b` against `aXb`) fails, so the
compiled matcher is not the segment-wise matcher on every
`:`-containing pattern. -/
theorem metachar_pattern_breaks_segment_claim :
    isDynamicPath "/a.b/:id" = true
    ∧ (rmatch (compile "/a.b/:id") "/aXb/5".toList).map
        (List.map (fun b => (String.mk b.1, String.mk b.2)))
      = some [("id", "5")]
    ∧ specMatch "/a.b/:id" "/aXb/5" = none := by
  refine ⟨by decide, ?_, by decide⟩
  have hc : compile "/a.b/:id"
      = [.lit '/', .lit 'a', .dot, .lit 'b', .lit '/', .group ['i', 'd']] := by
    simp +decide [compile, compileAux, isWordChar]
  rw [hc]
  decide

/-- C5 (amended): for route patterns containing `:` segments whose
literal characters include no regex metacharacters and whose parameter
names are pairwise distinct (on a metacharacter the compiled regex does
not implement literal equality — see the counterexample above — and on a
duplicate name the regex constructor itself throws), the source's
compiled matcher succeeds exactly when the pathname has the same segment
count, literal segments are string-equal, and each `:`-named segment
takes a nonempty slash-free pathname segment — and on success the
bindings are precisely those captured segment values as raw strings. -/
theorem dynamic_pattern_match_iff_segments (ptn pathname : String)
    (hwf : wfPattern ptn.toList = true)
    (hnames : (paramNames ptn.toList).Nodup)
    (hdyn : isDynamicPath ptn = true) :
    (rmatch (compile ptn) pathname.toList).map
        (List.map (fun b => (String.mk b.1, String.mk b.2)))
      = specMatch ptn pathname := by
  unfold specMatch compile
  rw [compileAux_eq_compileSegs ptn.toList hwf]
  rw [rmatch_compileSegs (splitSlash ptn.toList) (splitSlash_ne_nil _)
    (fun s hs => by
      unfold wfPattern at hwf
      simp [List.all_eq_true] at hwf
      exact hwf s hs)
    (fun s hs => mem_splitSlash_noslash _ s hs) pathname.toList]

/-- Witness for C5 at the claim's own example: pattern
`/posts/:postId/comments/:commentId` against `GET /posts/42/comments/7`
yields `postId = "42"`, `commentId = "7"`. -/
theorem dynamic_pattern_match_witness :
    (rmatch (compile "/posts/:postId/comments/:commentId")
        "/posts/42/comments/7".toList).map
        (List.map (fun b => (String.mk b.1, String.mk b.2)))
      = some [("postId", "42"), ("commentId", "7")] := by
  rw [dynamic_pattern_match_iff_segments _ _ (by decide) (by decide) (by decide)]
  decide
